import Mathlib

/-!
Verification of the SBTA `Data_Manipulator` array pipeline
(`src/SBTA/Data_Manip.py`).

The pipeline works on dense 2-D numeric arrays whose row 0 and column 0
hold residue labels, on nested replicate/frame arrays of flattened frame
vectors, and on small clustering tables.  Scalars are modelled exactly as
rationals; numpy and scipy array primitives used by the code (boolean mask
selection, `np.isin`, `np.median`, `np.max`, `np.min`, `np.vstack`) are
given direct functional models, while the external k-means and whitening
routines are abstract function parameters.  A Python call that can raise
is modelled with `Except String`.
-/

namespace SBTA

/-- A dense 2-D numeric array: a list of rows of rationals.  Row 0 and
column 0 hold residue labels. -/
abbrev Arr := List (List ℚ)

/-- Result of a Python call: a value, or a raised exception rendered as a
message string. -/
abbrev PyResult (α : Type) := Except String α

/-- Numpy boolean-mask selection `xs[mask]`: keep the entries whose mask
bit is `true`, in order.  Used for `array[row_mask, :]` and
`array[:, col_mask]`. -/
def maskSelect {α : Type} (xs : List α) (mask : List Bool) : List α :=
  ((xs.zip mask).filter (fun p => p.2)).map (fun p => p.1)

/-- `array[0, :]`: the label row. -/
def row0 (array : Arr) : List ℚ := array.getD 0 []

/-- `array[:, 0]`: the label column (entry 0 of each row). -/
def col0 (array : Arr) : List ℚ := array.map (fun row => row.getD 0 0)

/-- The `residues_to_filter` argument of `filter_array`: either the
string directive `"ALL"` or a list of residue labels. -/
inductive ResidueFilter where
  | ALL : ResidueFilter
  | residues : List ℚ → ResidueFilter

/-- Shallow embedding of `Data_Manipulator.filter_array` (the defaulting
of the arguments from `self` is resolved by the caller).  The source
prepends `0` to the residue list, builds `np.isin` masks against the
label column and label row, and subselects; the trailing `pop()` on the
local list does not affect the returned value.  The `"ALL"` directive
returns the input unchanged. -/
def filter_array (array : Arr) (residues_to_filter : ResidueFilter) : Arr :=
  match residues_to_filter with
  | .ALL => array
  | .residues rs =>
      let rtf : List ℚ := 0 :: rs
      let row_mask : List Bool := (col0 array).map (fun x => decide (x ∈ rtf))
      let col_mask : List Bool := (row0 array).map (fun x => decide (x ∈ rtf))
      let filtered_rows := maskSelect array row_mask
      filtered_rows.map (fun row => maskSelect row col_mask)

/-- Spec-side row/column predicate: the label lies in `S ∪ \x7b0\x7d`. -/
def keepLabel (S : List ℚ) (x : ℚ) : Bool := decide (x = 0 ∨ x ∈ S)

/-- Spec-side column selection: keep the entries of `row` standing under
a column label (the entry of the label row at the same position) that
lies in `S ∪ \x7b0\x7d`, in original order. -/
def specColFilter (S : List ℚ) (labels row : List ℚ) : List ℚ :=
  ((row.zip labels).filter (fun p => keepLabel S p.2)).map (fun p => p.1)

/-- Spec-side statement of residue filtering: keep exactly the rows and
columns whose label lies in `S ∪ \x7b0\x7d`, in original relative order. -/
def spec_filter (array : Arr) (S : List ℚ) : Arr :=
  (array.filter (fun row => keepLabel S (row.getD 0 0))).map
    (fun row => specColFilter S (row0 array) row)

theorem maskSelect_map_self {α : Type} (p : α → Bool) :
    ∀ xs : List α, maskSelect xs (xs.map p) = xs.filter p := by
  intro xs
  induction xs with
  | nil => rfl
  | cons x xs ih =>
      simp only [maskSelect, List.map_cons, List.zip_cons_cons, List.filter_cons]
      by_cases h : p x
      · simp only [h, if_pos, List.map_cons]
        simpa [maskSelect] using ih
      · simp only [h]
        simpa [maskSelect] using ih

theorem maskSelect_zip_map {α β : Type} (p : β → Bool) :
    ∀ (xs : List α) (ys : List β),
      maskSelect xs (ys.map p)
        = ((xs.zip ys).filter (fun q => p q.2)).map (fun q => q.1) := by
  intro xs
  induction xs with
  | nil => intro ys; rfl
  | cons x xs ih =>
      intro ys
      cases ys with
      | nil => rfl
      | cons y ys =>
          simp only [maskSelect, List.map_cons, List.zip_cons_cons, List.filter_cons]
          by_cases h : p y
          · simp only [h, List.map_cons]
            simpa [maskSelect] using ih ys
          · simp only [h]
            simpa [maskSelect] using ih ys

theorem mem_cons_zero_iff_keepLabel (S : List ℚ) (x : ℚ) :
    decide (x ∈ (0 : ℚ) :: S) = keepLabel S x := by
  simp [keepLabel, List.mem_cons]

/-- C8: `filter_array` with the keep-all directive is the identity. -/
theorem filter_array_ALL_id (array : Arr) :
    filter_array array .ALL = array := rfl

/-- C3: on a labelled array whose corner label is `0`, `filter_array`
with residue set `S` keeps exactly the rows and columns whose label lies
in `S` together with `0`, in original relative order; the label row is
kept first, and every kept row keeps its own label as first entry. -/
theorem filter_array_residues_spec (array : Arr) (S : List ℚ)
    (hr0 : row0 array ≠ []) (h00 : (row0 array).getD 0 0 = 0) :
    filter_array array (.residues S) = spec_filter array S ∧
    (array ≠ [] →
      ∃ rest, filter_array array (.residues S)
        = specColFilter S (row0 array) (row0 array) :: rest) ∧
    (∀ row : List ℚ, (specColFilter S (row0 array) row).getD 0 0 = row.getD 0 0) := by
  have hpb : (fun x : ℚ => decide (x ∈ (0 : ℚ) :: S)) = keepLabel S :=
    funext (mem_cons_zero_iff_keepLabel S)
  obtain ⟨l, ls, hl⟩ : ∃ l ls, row0 array = l :: ls := by
    cases h : row0 array with
    | nil => exact absurd h hr0
    | cons l ls => exact ⟨l, ls, rfl⟩
  have hl0 : l = 0 := by
    have := h00
    rw [hl] at this
    simpa using this
  have hcols : ∀ row : List ℚ,
      maskSelect row ((row0 array).map (keepLabel S)) = specColFilter S (row0 array) row := by
    intro row
    exact maskSelect_zip_map (keepLabel S) row (row0 array)
  have hmain : filter_array array (.residues S) = spec_filter array S := by
    simp only [filter_array, hpb]
    rw [col0, List.map_map, maskSelect_map_self]
    simp only [spec_filter, Function.comp]
    exact List.map_congr_left (fun row _ => hcols row)
  have hrowkeep : ∀ row : List ℚ,
      (specColFilter S (row0 array) row).getD 0 0 = row.getD 0 0 := by
    intro row
    cases row with
    | nil => simp [specColFilter]
    | cons x xs =>
        rw [hl, hl0]
        simp only [specColFilter, List.zip_cons_cons, List.filter_cons]
        have : keepLabel S 0 = true := by simp [keepLabel]
        simp [this]
  refine ⟨hmain, ?_, hrowkeep⟩
  intro hne
  obtain ⟨r0, rest, hr⟩ : ∃ r0 rest, array = r0 :: rest := by
    cases h : array with
    | nil => exact absurd h hne
    | cons r0 rest => exact ⟨r0, rest, rfl⟩
  subst hr
  have h00r : r0[0]?.getD 0 = (0 : ℚ) := by simpa [row0] using h00
  have hkeep : keepLabel S (r0[0]?.getD 0) = true := by
    rw [h00r]
    simp [keepLabel]
  refine ⟨(rest.filter (fun row => keepLabel S (row.getD 0 0))).map
      (fun row => specColFilter S r0 row), ?_⟩
  rw [hmain]
  show ((r0 :: rest).filter (fun row => keepLabel S (row.getD 0 0))).map
      (fun row => specColFilter S r0 row)
    = specColFilter S r0 r0
      :: (rest.filter (fun row => keepLabel S (row.getD 0 0))).map
           (fun row => specColFilter S r0 row)
  rw [List.filter_cons]
  simp [hkeep]

/-- Witness for C3 at a concrete labelled 3 x 3 array with S = [2]. -/
theorem filter_array_residues_spec_witness :
    row0 [[0,1,2],[1,3,4],[2,5,6]] ≠ [] ∧
    filter_array [[0,1,2],[1,3,4],[2,5,6]] (.residues [2])
      = spec_filter [[0,1,2],[1,3,4],[2,5,6]] [2] :=
  ⟨by decide, (filter_array_residues_spec _ _ (by decide) (by decide)).1⟩

/-- One row of the difference result, built from position `j` on: the
entry under column index `0` (the label) keeps the `array_two` value,
every later entry is the `array_two` value minus the `array_one` value at
the same position. -/
def diffCells (rowA rowB : List ℚ) (j : ℕ) : List ℚ :=
  match rowB with
  | [] => []
  | x :: xs => (if j = 0 then x else x - rowA.getD j 0) :: diffCells rowA xs (j + 1)

/-- The rows of the difference result, built from row index `i` on: row
`0` (the label row) of `array_two` is kept whole, every later row has its
data cells replaced by the difference. -/
def diffRows (array_one : Arr) (rows : Arr) (i : ℕ) : Arr :=
  match rows with
  | [] => []
  | row :: rest =>
      (if i = 0 then row else diffCells (array_one.getD i []) row 0)
        :: diffRows array_one rest (i + 1)

/-- Shallow embedding of `Data_Manipulator.create_difference_array`: a
copy of `array_two` whose `[1:, 1:]` block is replaced by
`array_two[1:, 1:] - array_one[1:, 1:]`. -/
def create_difference_array (array_one array_two : Arr) : Arr :=
  diffRows array_one array_two 0

/-- The scalar at row `i`, column `j` of an array, `0` out of range. -/
def cell (M : Arr) (i j : ℕ) : ℚ := (M.getD i []).getD j 0

theorem diffCells_get? (rowA : List ℚ) :
    ∀ (rowB : List ℚ) (j0 j : ℕ),
      (diffCells rowA rowB j0).get? j
        = (rowB.get? j).map
            (fun x => if j0 + j = 0 then x else x - rowA.getD (j0 + j) 0) := by
  intro rowB
  induction rowB with
  | nil => intro j0 j; rfl
  | cons x xs ih =>
      intro j0 j
      cases j with
      | zero => simp [diffCells]
      | succ j =>
          simp only [diffCells, List.get?_cons_succ, ih xs.tail.length]
          rw [ih (j0 + 1) j]
          have harith : j0 + 1 + j = j0 + (j + 1) := by omega
          rw [harith]

theorem diffRows_get? (A : Arr) :
    ∀ (rows : Arr) (k i : ℕ),
      (diffRows A rows k).get? i
        = (rows.get? i).map
            (fun row => if k + i = 0 then row else diffCells (A.getD (k + i) []) row 0) := by
  intro rows
  induction rows with
  | nil => intro k i; rfl
  | cons row rest ih =>
      intro k i
      cases i with
      | zero => simp [diffRows]
      | succ i =>
          simp only [diffRows, List.get?_cons_succ]
          rw [ih (k + 1) i]
          have harith : k + 1 + i = k + (i + 1) := by omega
          rw [harith]

theorem getD_of_get?_some {α : Type} {l : List α} {n : ℕ} {a : α} (d : α)
    (h : l.get? n = some a) : l.getD n d = a := by
  rw [List.getD_eq_getElem?_getD, ← List.get?_eq_getElem?, h]
  rfl

theorem getD_of_get?_none {α : Type} {l : List α} {n : ℕ} (d : α)
    (h : l.get? n = none) : l.getD n d = d := by
  rw [List.getD_eq_getElem?_getD, ← List.get?_eq_getElem?, h]
  rfl

theorem diffCells_length (rowA : List ℚ) :
    ∀ (rowB : List ℚ) (j0 : ℕ), (diffCells rowA rowB j0).length = rowB.length := by
  intro rowB
  induction rowB with
  | nil => intro j0; rfl
  | cons x xs ih => intro j0; simp [diffCells, ih]

theorem cell_diff_in (A B : Arr) (i j : ℕ) (hi0 : i ≠ 0) (hj0 : j ≠ 0)
    (hi : i < B.length) (hj : j < (B.getD i []).length) :
    cell (create_difference_array A B) i j = cell B i j - cell A i j := by
  obtain ⟨rowB, hrowB⟩ : ∃ rowB, B.get? i = some rowB := by
    cases h : B.get? i with
    | none => exact absurd (List.get?_eq_none.mp h) (Nat.not_le.mpr hi)
    | some rowB => exact ⟨rowB, rfl⟩
  have hBget : B.getD i [] = rowB := getD_of_get?_some [] hrowB
  obtain ⟨x, hx⟩ : ∃ x, rowB.get? j = some x := by
    cases h : rowB.get? j with
    | none =>
        rw [hBget] at hj
        exact absurd (List.get?_eq_none.mp h) (Nat.not_le.mpr hj)
    | some x => exact ⟨x, rfl⟩
  have hrowd : rowB.getD j 0 = x := getD_of_get?_some 0 hx
  have hdrow : (create_difference_array A B).get? i
      = some (diffCells (A.getD i []) rowB 0) := by
    rw [create_difference_array, diffRows_get? A B 0 i, hrowB]
    simp [hi0]
  have hdcell : (diffCells (A.getD i []) rowB 0).get? j
      = some (x - (A.getD i []).getD j 0) := by
    rw [diffCells_get? (A.getD i []) rowB 0 j, hx]
    simp [hj0]
  simp only [cell]
  rw [getD_of_get?_some [] hdrow, getD_of_get?_some 0 hdcell, hBget, hrowd]

theorem cell_out_row (M : Arr) (i j : ℕ) (hi : M.length ≤ i) : cell M i j = 0 := by
  have h1 : M.get? i = none := List.get?_eq_none.mpr hi
  have h2 : (([] : List ℚ)).get? j = none := rfl
  simp only [cell]
  rw [getD_of_get?_none [] h1, getD_of_get?_none 0 h2]

theorem cell_out_col (M : Arr) (i j : ℕ) (hj : (M.getD i []).length ≤ j) :
    cell M i j = 0 := by
  have h1 : (M.getD i []).get? j = none := List.get?_eq_none.mpr hj
  simp only [cell]
  rw [getD_of_get?_none 0 h1]

theorem diff_length (A B : Arr) :
    (create_difference_array A B).length = B.length := by
  rw [create_difference_array]
  generalize 0 = k
  induction B generalizing k with
  | nil => rfl
  | cons row rest ih => simp [diffRows, ih]

theorem diff_row_length (A B : Arr) (i : ℕ) (hi0 : i ≠ 0) (hi : i < B.length) :
    ((create_difference_array A B).getD i []).length = (B.getD i []).length := by
  obtain ⟨rowB, hrowB⟩ : ∃ rowB, B.get? i = some rowB := by
    cases h : B.get? i with
    | none => exact absurd (List.get?_eq_none.mp h) (Nat.not_le.mpr hi)
    | some rowB => exact ⟨rowB, rfl⟩
  have hdrow : (create_difference_array A B).get? i
      = some (diffCells (A.getD i []) rowB 0) := by
    rw [create_difference_array, diffRows_get? A B 0 i, hrowB]
    simp [hi0]
  rw [getD_of_get?_some [] hdrow, getD_of_get?_some [] hrowB]
  exact diffCells_length (A.getD i []) rowB 0

theorem row0_diff (A B : Arr) : row0 (create_difference_array A B) = row0 B := by
  cases B with
  | nil => rfl
  | cons row rest => rfl

theorem col0_diffCells (rowA row : List ℚ) :
    (diffCells rowA row 0).getD 0 0 = row.getD 0 0 := by
  cases row with
  | nil => rfl
  | cons x xs => rfl

theorem col0_diff (A B : Arr) : col0 (create_difference_array A B) = col0 B := by
  rw [create_difference_array]
  generalize 0 = k
  induction B generalizing k with
  | nil => rfl
  | cons row rest ih =>
      show (if k = 0 then row else diffCells (A.getD k []) row 0).getD 0 0
            :: col0 (diffRows A rest (k + 1))
          = row.getD 0 0 :: col0 rest
      rw [ih (k + 1)]
      by_cases hk : k = 0
      · rw [if_pos hk]
      · rw [if_neg hk, col0_diffCells]

/-- C4: for same-shape arrays with equal label row and label column, the
difference is anti-symmetric on the data block (`diff(A,B)[1:,1:]` is the
element-wise negation of `diff(B,A)[1:,1:]`), and the label row and label
column of the result equal those of both inputs. -/
theorem create_difference_array_antisymm (A B : Arr)
    (hlen : A.length = B.length)
    (hrows : ∀ i, (A.getD i []).length = (B.getD i []).length)
    (hrow : row0 A = row0 B) (hcol : col0 A = col0 B) :
    (∀ i j, 1 ≤ i → 1 ≤ j →
        cell (create_difference_array A B) i j
          = - cell (create_difference_array B A) i j) ∧
    row0 (create_difference_array A B) = row0 A ∧
    row0 (create_difference_array A B) = row0 B ∧
    col0 (create_difference_array A B) = col0 A ∧
    col0 (create_difference_array A B) = col0 B := by
  refine ⟨?_, ?_, row0_diff A B, ?_, col0_diff A B⟩
  · intro i j hi1 hj1
    have hi0 : i ≠ 0 := by omega
    have hj0 : j ≠ 0 := by omega
    by_cases hi : i < B.length
    · have hiA : i < A.length := by omega
      by_cases hj : j < (B.getD i []).length
      · have hjA : j < (A.getD i []).length := by rw [hrows i]; exact hj
        rw [cell_diff_in A B i j hi0 hj0 hi hj,
            cell_diff_in B A i j hi0 hj0 hiA hjA]
        ring
      · have hjB : ((create_difference_array A B).getD i []).length ≤ j := by
          rw [diff_row_length A B i hi0 hi]; omega
        have hjA : ((create_difference_array B A).getD i []).length ≤ j := by
          rw [diff_row_length B A i hi0 hiA, hrows i]; omega
        rw [cell_out_col _ i j hjB, cell_out_col _ i j hjA]
        ring
    · have hoB : (create_difference_array A B).length ≤ i := by
        rw [diff_length]; omega
      have hoA : (create_difference_array B A).length ≤ i := by
        rw [diff_length]; omega
      rw [cell_out_row _ i j hoB, cell_out_row _ i j hoA]
      ring
  · rw [row0_diff, hrow]
  · rw [col0_diff, hcol]

/-- Witness for C4 at a concrete pair of labelled 2 x 2 arrays. -/
theorem create_difference_array_antisymm_witness :
    ([[0, 1], [1, 5]] : Arr).length = ([[0, 1], [1, 3]] : Arr).length ∧
    cell (create_difference_array [[0, 1], [1, 5]] [[0, 1], [1, 3]]) 1 1
      = - cell (create_difference_array [[0, 1], [1, 3]] [[0, 1], [1, 5]]) 1 1 :=
  ⟨by decide,
    (create_difference_array_antisymm [[0, 1], [1, 5]] [[0, 1], [1, 3]]
        (by decide)
        (by intro i; rcases i with _ | _ | i <;> rfl)
        (by decide) (by decide)).1 1 1 (by decide) (by decide)⟩

/-- Numpy median of a flat list of values: the middle element of the
sorted list for odd length, the mean of the two middle elements for even
length. -/
def np_median (xs : List ℚ) : ℚ :=
  let s := xs.insertionSort (· ≤ ·)
  if xs.length % 2 = 1 then s.getD (xs.length / 2) 0
  else (s.getD (xs.length / 2 - 1) 0 + s.getD (xs.length / 2) 0) / 2

/-- Numpy maximum of a nonempty flat list (`0` on the empty list, which
the embedding guards against separately). -/
def np_max : List ℚ → ℚ
  | [] => 0
  | x :: xs => xs.foldl (fun a b => max a b) x

/-- Numpy minimum, same convention as `np_max`. -/
def np_min : List ℚ → ℚ
  | [] => 0
  | x :: xs => xs.foldl (fun a b => min a b) x

/-- The data block `array[1:, 1:]` as a flat list of cells. -/
def dataCells (array : Arr) : List ℚ :=
  ((array.drop 1).map (fun row => row.drop 1)).flatten

/-- Shallow embedding of `Data_Manipulator.filter_all_over_diff`, with
the `self.threshold` attribute passed explicitly.  With an explicit
`threshhold` argument the source rebinds the band from `self.threshold`
(raising `TypeError` when that attribute is still `None`) and then
executes a diagnostic print whose f-string reads the names `midpoint`,
`max` and `min`, which are bound only in the no-threshold branch, so the
call raises `NameError` before any filtering happens.  Without an
explicit threshold the band is derived from median/max/min statistics of
the data block (`np.max` on an empty block raises `ValueError`) and the
rows and columns holding at least one out-of-band data cell are kept. -/
def filter_all_over_diff (self_threshold : Option ℚ) (array : Arr)
    (threshhold : Option ℚ) : PyResult Arr :=
  match threshhold with
  | some _ =>
      match self_threshold with
      | none => .error "TypeError: bad operand type for unary minus: NoneType"
      | some _ => .error "NameError: name midpoint is not defined"
  | none =>
      let cells := dataCells array
      if cells.isEmpty then .error "ValueError: zero-size array reduction"
      else
        let midpoint := np_median cells
        let maxv := np_max cells
        let minv := np_min cells
        let upperboundary := midpoint + (1 / 2) * maxv
        let lowerboundary := midpoint - (-(1 / 2) * minv)
        let outOfBand := fun x : ℚ =>
          decide (upperboundary < x) || decide (x < lowerboundary)
        let row_mask := array.map (fun row => (row.drop 1).any outOfBand)
        let col_mask := (List.range (row0 array).length).map
          (fun j => (array.drop 1).any (fun row => outOfBand (row.getD j 0)))
        .ok ((maskSelect array row_mask).map (fun row => maskSelect row col_mask))

/-- C1: with an explicit threshold, `filter_all_over_diff` never returns
a filtered array: the diagnostic print reads `midpoint`, a name bound
only in the no-threshold branch, so every such call raises `NameError`
instead of returning the rows and columns with an out-of-band cell. -/
theorem filter_all_over_diff_explicit_raises (st t : ℚ) (array : Arr) :
    filter_all_over_diff (some st) array (some t)
      = .error "NameError: name midpoint is not defined" := rfl

/-- A flattened per-frame vector. -/
abbrev Frame := List ℚ

/-- A clustering table row list: each row pairs a cluster label with the
value stored in the second column (`None` for the uninitialized entries
of an object-dtype `np.empty`). -/
abbrev Table := List (ℕ × Option (List ℚ))

/-- Abstract model of `scipy.cluster.vq.kmeans`: a function from the
observation matrix and the requested number of clusters to the pair
(codebook, distortion). -/
abbrev KMeans := List (List ℚ) → ℕ → (List (List ℚ)) × ℚ

/-- `np.vstack` on a list of equal-length flattened frame vectors: the
2-D observation matrix whose rows are those vectors. -/
def np_vstack (frames : List Frame) : List (List ℚ) := frames

/-- Shallow embedding of
`Data_Manipulator.create_empty_clustering_table`: an `n x 2` object
table whose first column holds the labels `0 .. n-1` and whose second
column is uninitialized (`None`); `n` defaults to `2`. -/
def create_empty_clustering_table (n : Option ℕ) : Table :=
  (List.range (n.getD 2)).map (fun i => (i, none))

/-- The table-filling loop of `preform_clust_z`: write codebook entry
number `j` into column 1 of table row `j` for each codebook row in turn;
a codebook longer than the table raises `IndexError`. -/
def fill_table (table : Table) (codebook : List (List ℚ)) (j : ℕ) :
    PyResult Table :=
  match codebook with
  | [] => .ok table
  | c :: cs =>
      if j < table.length then
        fill_table (table.set j ((table.getD j (0, none)).1, some c)) cs (j + 1)
      else .error "IndexError: index out of bounds"

/-- The replicate loop of `preform_clust_z` over the replicates with
index `1` onward: per replicate, build an empty table, stack the frames,
run k-means with the hardcoded guess `2`, fill the table from the
codebook and collect it. -/
def clustZLoop (kmeans : KMeans) (n : ℕ) (reps : List (List Frame)) :
    PyResult (List Table) :=
  match reps with
  | [] => .ok []
  | rep :: rest =>
      let empty_table := create_empty_clustering_table (some n)
      let codebook := (kmeans (np_vstack rep) 2).1
      match fill_table empty_table codebook 0 with
      | .error e => .error e
      | .ok t =>
          match clustZLoop kmeans n rest with
          | .error e => .error e
          | .ok ts => .ok (t :: ts)

/-- Shallow embedding of `Data_Manipulator.preform_clust_z`: the source
loop runs over `range(1, len(array))`, i.e. over `array.drop 1`, so the
replicate with index `0` is never clustered; `n` defaults to `2` while
k-means itself is always called with `k_or_guess = 2`. -/
def preform_clust_z (kmeans : KMeans) (array : List (List Frame))
    (n : Option ℕ) : PyResult (List Table) :=
  clustZLoop kmeans (n.getD 2) (array.drop 1)

/-- The replicate loop of `preform_clust_w`: per replicate with index
`1` onward, run k-means with the hardcoded guess `8`; the local
`k_array` keeps only the latest result (the appended `cluster_output`
list is dead). -/
def clustWLoop (kmeans : KMeans) (reps : List (List Frame))
    (k_array : Option ((List (List ℚ)) × ℚ)) :
    Option ((List (List ℚ)) × ℚ) :=
  match reps with
  | [] => k_array
  | rep :: rest => clustWLoop kmeans rest (some (kmeans (np_vstack rep) 8))

/-- Shallow embedding of `Data_Manipulator.preform_clust_w`: it returns
`k_array`, the k-means result of the LAST processed replicate, not the
collected list; with fewer than two replicates the loop body never runs
and the trailing `return k_array` reads an unbound local. -/
def preform_clust_w (kmeans : KMeans) (array : List (List Frame)) :
    PyResult ((List (List ℚ)) × ℚ) :=
  match clustWLoop kmeans (array.drop 1) none with
  | none => .error "UnboundLocalError: k_array referenced before assignment"
  | some k => .ok k

/-- Spec-side clustering table: labels `0 .. n-1` in column 0, the
matching codebook row (when there is one) in column 1. -/
def mkTable (n : ℕ) (codebook : List (List ℚ)) : Table :=
  (List.range n).map (fun i => (i, codebook.get? i))

/-- A k-means stand-in used for concrete evaluation: it always returns
the two-row codebook `[[0], [1]]` with distortion `0`. -/
def kstub : KMeans := fun _ _ => ([[0], [1]], 0)

/-- C2 counterexample: on a replicate array with two replicates the
returned value holds a single cluster table, not one per replicate - the
source loop starts at index `1` and skips the first replicate. -/
theorem preform_clust_z_skips_first_replicate :
    (preform_clust_z kstub [[[1, 2]], [[3, 4]]] none).map List.length = .ok 1 ∧
    ([[[1, 2]], [[3, 4]]] : List (List Frame)).length = 2 := ⟨rfl, rfl⟩

theorem set_map_range {α : Type} (n j : ℕ) (g : ℕ → α) (a : α) (hj : j < n) :
    ((List.range n).map g).set j a
      = (List.range n).map (fun i => if i = j then a else g i) := by
  apply List.ext_getElem?
  intro k
  rw [List.getElem?_set]
  by_cases hk : j = k
  · subst hk
    have hlen : j < ((List.range n).map g).length := by
      simp [List.length_map, List.length_range, hj]
    rw [if_pos rfl, if_pos hlen, List.getElem?_map, List.getElem?_range hj]
    simp
  · rw [if_neg hk, List.getElem?_map, List.getElem?_map]
    by_cases hkn : k < n
    · rw [List.getElem?_range hkn]
      simp [Ne.symm hk]
    · have hnone : (List.range n)[k]? = none :=
        List.getElem?_eq_none (by simpa [List.length_range] using Nat.le_of_not_lt hkn)
      rw [hnone]
      rfl

theorem getD_map_range {α : Type} (n j : ℕ) (g : ℕ → α) (d : α) (hj : j < n) :
    ((List.range n).map g).getD j d = g j := by
  rw [List.getD_eq_getElem?_getD, List.getElem?_map, List.getElem?_range hj]
  rfl

theorem fill_table_range (codebook : List (List ℚ)) :
    ∀ (n j : ℕ) (f : ℕ → Option (List ℚ)),
      j + codebook.length ≤ n →
      fill_table ((List.range n).map (fun i => (i, f i))) codebook j
        = .ok ((List.range n).map (fun i =>
            (i, if j ≤ i ∧ i < j + codebook.length then codebook.get? (i - j)
                else f i))) := by
  induction codebook with
  | nil =>
      intro n j f hle
      simp only [fill_table]
      congr 1
      apply List.map_congr_left
      intro i hi
      have hfalse : ¬(j ≤ i ∧ i < j + ([] : List (List ℚ)).length) := by
        simp only [List.length_nil]
        omega
      rw [if_neg hfalse]
  | cons c cs ih =>
      intro n j f hle
      have hjn : j < n := by
        simp only [List.length_cons] at hle
        omega
      have hlen : j < ((List.range n).map (fun i => ((i : ℕ), f i))).length := by
        simp [List.length_map, List.length_range, hjn]
      simp only [fill_table]
      rw [if_pos hlen, getD_map_range n j _ (0, none) hjn,
          set_map_range n j _ (j, some c) hjn]
      have hfun : (fun i => if i = j then ((j : ℕ), some c) else (i, f i))
          = (fun i => ((i : ℕ), if i = j then some c else f i)) := by
        funext i
        by_cases hij : i = j
        · subst hij
          simp
        · simp [hij]
      rw [hfun, ih n (j + 1) _ (by simp only [List.length_cons] at hle; omega)]
      congr 1
      apply List.map_congr_left
      intro i hi
      refine congrArg (fun o => ((i : ℕ), o)) ?_
      by_cases h1 : j + 1 ≤ i ∧ i < j + 1 + cs.length
      · rw [if_pos h1]
        have h2 : j ≤ i ∧ i < j + (c :: cs).length := by
          simp only [List.length_cons]
          omega
        rw [if_pos h2]
        have h3 : i - j = (i - (j + 1)) + 1 := by omega
        rw [h3, List.get?_cons_succ]
      · rw [if_neg h1]
        by_cases h4 : i = j
        · subst h4
          rw [if_pos rfl]
          have h5 : i ≤ i ∧ i < i + (c :: cs).length := by
            simp only [List.length_cons]
            omega
          rw [if_pos h5]
          simp
        · rw [if_neg h4]
          have h6 : ¬(j ≤ i ∧ i < j + (c :: cs).length) := by
            simp only [List.length_cons] at h1 ⊢
            omega
          rw [if_neg h6]

theorem fill_table_mkTable (n : ℕ) (codebook : List (List ℚ))
    (h : codebook.length ≤ n) :
    fill_table (create_empty_clustering_table (some n)) codebook 0
      = .ok (mkTable n codebook) := by
  have h0 : create_empty_clustering_table (some n)
      = (List.range n).map (fun i => ((i : ℕ), (none : Option (List ℚ)))) := rfl
  rw [h0, fill_table_range codebook n 0 (fun _ => none) (by omega)]
  congr 1
  rw [mkTable]
  apply List.map_congr_left
  intro i hi
  refine congrArg (fun o => ((i : ℕ), o)) ?_
  by_cases hc : i < codebook.length
  · have hin : 0 ≤ i ∧ i < 0 + codebook.length := ⟨Nat.zero_le i, by omega⟩
    rw [if_pos hin]
    simp
  · have hout : ¬(0 ≤ i ∧ i < 0 + codebook.length) := by omega
    rw [if_neg hout]
    exact (List.get?_eq_none.mpr (by omega)).symm

theorem clustZLoop_ok (kmeans : KMeans) (n : ℕ) :
    ∀ reps : List (List Frame),
      (∀ rep ∈ reps, ((kmeans (np_vstack rep) 2).1).length ≤ n) →
      ∃ ts, clustZLoop kmeans n reps = .ok ts ∧ ts.length = reps.length ∧
        ∀ k, k < reps.length →
          ts.getD k [] = mkTable n ((kmeans (np_vstack (reps.getD k [])) 2).1) := by
  intro reps
  induction reps with
  | nil => exact fun h => ⟨[], rfl, rfl, fun k hk => absurd hk (by simp)⟩
  | cons rep rest ih =>
      intro h
      have hrep : ((kmeans (np_vstack rep) 2).1).length ≤ n := h rep (by simp)
      obtain ⟨ts, hts, hlen, hidx⟩ := ih (fun r hr => h r (by simp [hr]))
      refine ⟨mkTable n ((kmeans (np_vstack rep) 2).1) :: ts, ?_, by simp [hlen], ?_⟩
      · simp only [clustZLoop]
        rw [fill_table_mkTable n _ hrep, hts]
      · intro k hk
        cases k with
        | zero => simp [List.getD_cons_zero]
        | succ k =>
            rw [List.getD_cons_succ, List.getD_cons_succ]
            exact hidx k (by simpa using Nat.lt_of_succ_lt_succ hk)

theorem clustWLoop_cons (kmeans : KMeans) :
    ∀ (reps : List (List Frame)) (rep0 : List Frame)
      (acc : Option ((List (List ℚ)) × ℚ)),
      clustWLoop kmeans (rep0 :: reps) acc
        = some (kmeans (np_vstack (reps.getLastD rep0)) 8) := by
  intro reps
  induction reps with
  | nil => intro rep0 acc; rfl
  | cons r rest ih =>
      intro rep0 acc
      show clustWLoop kmeans (r :: rest) (some (kmeans (np_vstack rep0) 8))
          = some (kmeans (np_vstack ((r :: rest).getLastD rep0)) 8)
      rw [ih r _, List.getLastD_cons]

/-- C2 amended: `preform_clust_z` collects one cluster table per
replicate OTHER THAN THE FIRST (the loop starts at index `1`), table `k`
describing replicate `k + 1`: labels `0 .. n-1` paired with the matching
row of the codebook that k-means (always called with guess `2`) returned
for that replicate, `none` where the codebook is shorter; and
`preform_clust_w` likewise skips the first replicate but returns only
the k-means result of the last replicate, not a collection. -/
theorem preform_clust_z_amended (kmeans : KMeans) (array : List (List Frame))
    (n : ℕ)
    (hcb : ∀ rep ∈ array.drop 1, ((kmeans (np_vstack rep) 2).1).length ≤ n) :
    (∃ ts, preform_clust_z kmeans array (some n) = .ok ts ∧
        ts.length = array.length - 1 ∧
        ∀ k, k < ts.length →
          ts.getD k []
            = mkTable n ((kmeans (np_vstack (array.getD (k + 1) [])) 2).1)) ∧
    (2 ≤ array.length →
        preform_clust_w kmeans array
          = .ok (kmeans (np_vstack (array.getLastD [])) 8)) := by
  constructor
  · cases array with
    | nil => exact ⟨[], rfl, rfl, fun k hk => absurd hk (by simp)⟩
    | cons a rest =>
        obtain ⟨ts, hts, hlen, hidx⟩ :=
          clustZLoop_ok kmeans n rest (by simpa using hcb)
        refine ⟨ts, hts, by simpa using hlen, ?_⟩
        intro k hk
        rw [List.getD_cons_succ]
        exact hidx k (by omega)
  · intro h2
    cases array with
    | nil => simp at h2
    | cons a rest =>
        cases rest with
        | nil => simp at h2
        | cons b rest2 =>
            show (match clustWLoop kmeans (b :: rest2) none with
                | none =>
                    (.error "UnboundLocalError: k_array referenced before assignment"
                      : PyResult ((List (List ℚ)) × ℚ))
                | some k => .ok k)
              = .ok (kmeans (np_vstack ((a :: b :: rest2).getLastD [])) 8)
            rw [clustWLoop_cons kmeans rest2 b none, List.getLastD_cons,
                List.getLastD_cons]

/-- Witness for the amended C2 at a concrete two-replicate array and the
concrete k-means stand-in. -/
theorem preform_clust_z_amended_witness :
    (∀ rep ∈ ([[[1, 2]], [[3, 4]]] : List (List Frame)).drop 1,
        ((kstub (np_vstack rep) 2).1).length ≤ 2) ∧
    preform_clust_w kstub [[[1, 2]], [[3, 4]]]
      = .ok (kstub (np_vstack
          (([[[1, 2]], [[3, 4]]] : List (List Frame)).getLastD [])) 8) :=
  ⟨by decide,
    (preform_clust_z_amended kstub [[[1, 2]], [[3, 4]]] 2 (by decide)).2
      (by decide)⟩

/-- Shallow embedding of `Data_Manipulator.format_array_for_whitening`:
numpy boolean-mask selection `array[array != 0]` on a flattened frame
vector, keeping the entries whose value is not zero, in order. -/
def format_array_for_whitening (array : Frame) : Frame :=
  maskSelect array (array.map (fun x => decide (x ≠ 0)))

/-- Shallow embedding of `Data_Manipulator.whiten_frames`, with the
external `scipy.cluster.vq.whiten` routine abstracted as a function:
every frame is passed through the zero-removal step and the result is
whitened, frame by frame. -/
def whiten_frames (whiten : Frame → Frame) (array : List Frame) : List Frame :=
  array.map (fun frame => whiten (format_array_for_whitening frame))

/-- C6: the zero-removal step returns its input with exactly the
zero-valued entries dropped, in order, and `whiten_frames` applies the
variance-based scaling only to the frame with its zero entries already
removed. -/
theorem whiten_frames_zero_removal (whiten : Frame → Frame)
    (frames : List Frame) :
    whiten_frames whiten frames
      = frames.map (fun f => whiten (f.filter (fun x => decide (x ≠ 0)))) ∧
    ∀ f : Frame, format_array_for_whitening f
      = f.filter (fun x => decide (x ≠ 0)) := by
  have h : ∀ f : Frame,
      format_array_for_whitening f = f.filter (fun x => decide (x ≠ 0)) :=
    fun f => maskSelect_map_self (fun x => decide (x ≠ 0)) f
  exact ⟨List.map_congr_left (fun f _ => congrArg whiten (h f)), h⟩

/-- A raw constructor argument for an array slot of `Data_Manipulator`:
either a sparse-matrix-like object carrying a `toarray` conversion, or a
path to a serialized array on disk. -/
inductive ArrayInput where
  | sparse (m : List (List ℚ))
  | path (p : String)

/-- A Python value held in an attribute slot: a raw, unprocessed
constructor argument (for example the file-path string itself), a dense
processed array, or `None`. -/
inductive PyVal where
  | raw (a : ArrayInput)
  | dense (m : List (List ℚ))
  | pynone

/-- The serialized arrays `np.load` can read, as a map from path to
dense contents. -/
abbrev FS := String → List (List ℚ)

/-- Shallow embedding of `Data_Manipulator.process_input`: try
`array.toarray()` and densify; on `AttributeError` fall back to
`np.load(array)`. -/
def process_input (fs : FS) (array : ArrayInput) : List (List ℚ) :=
  match array with
  | .sparse m => m
  | .path p => fs p

/-- The two array attribute slots set at the top of
`Data_Manipulator.__init__`. -/
structure DataManipState where
  array_one : PyVal
  array_two : PyVal

/-- Shallow embedding of the `array_one` and `array_two` assignments in
`Data_Manipulator.__init__`:
`self.array_one` is the processed input when `array_one` is given, else
`None`; `self.array_two` is the processed input when `array_two` is
given, else the RAW `array_one` argument.  The later housekeeping
branches of the constructor touch only `res_filtered`,
`residues_to_filter` and the `filtered_*` attributes, never these two
slots. -/
def data_manipulator_init (fs : FS)
    (array_one array_two : Option ArrayInput) : DataManipState where
  array_one :=
    match array_one with
    | some a => .dense (process_input fs a)
    | none => .pynone
  array_two :=
    match array_two with
    | some b => .dense (process_input fs b)
    | none =>
        match array_one with
        | some a => .raw a
        | none => .pynone

/-- C10: constructed with `array_one` supplied and `array_two` omitted,
the stored `array_two` is the raw, unprocessed `array_one` argument
(for example the file-path string itself) and not a processed dense
array, while the stored `array_one` is the processed dense array. -/
theorem init_array_two_raw (fs : FS) (a : ArrayInput) :
    (data_manipulator_init fs (some a) none).array_two = .raw a ∧
    (data_manipulator_init fs (some a) none).array_one
      = .dense (process_input fs a) ∧
    ∀ m : List (List ℚ),
      (data_manipulator_init fs (some a) none).array_two ≠ .dense m := by
  refine ⟨rfl, rfl, ?_⟩
  intro m h
  exact PyVal.noConfusion h

end SBTA
